import Mathlib

/-!
# Verification of the architecture-conditional compute kernels

Shallow embedding of the five kernels (byte hashing, matrix multiplication,
substring counting, memory copy, polynomial evaluation) of the
`arm-migration-example` repository, together with theorems settling the
spec claims about them.

Conventions of the embedding:
* `unsigned long long` / `size_t` arithmetic is `Nat` reduced `% 2 ^ 64`
  wherever wraparound can occur;
* a byte is a `Nat` (value `0 ≤ b < 256`); `char` is modelled as an
  unsigned byte (char signedness is implementation-defined in C++;
  on AArch64 Linux, the repository's primary target, `char` is unsigned);
* buffers are `List Nat` (hash), `List Char` (search) or functions
  `Nat → Nat` (memory copy, where the source and destination are separate
  address spaces, matching the documented disjointness precondition);
* `double` is modelled as an exact rational (`ℚ`), following the spec's
  "over exact real arithmetic" reading of the claims;
* an out-of-bounds element access, undefined behaviour in the C++ source,
  is totalized as `none` via `List.getElem?`.
-/

namespace ArmMigration

/-- `2 ^ 64`, the modulus of `unsigned long long` / `size_t` arithmetic. -/
def U64 : Nat := 2 ^ 64

/-- `size_t` subtraction `a - b` with wraparound, for operands `< 2 ^ 64`. -/
def sub64 (a b : Nat) : Nat := (a + U64 - b) % U64

/-! ## Hash kernel

`src/hash_operations.cpp` (`compute_hash`, lines 18-53) and
`src/main.cpp` (`compute_hash`, lines 136-174). -/

/-- One DJB2 accumulation step of the source:
`hash = ((hash << 5) + hash) + byte;` in `unsigned long long` arithmetic. -/
def djb2Step (h b : Nat) : Nat := ((h <<< 5) + h + b) % U64

/-- A byte-by-byte run of `djb2Step` over a buffer (the inner 16-byte loops
and the scalar tail loop of `compute_hash` are all of this shape). -/
def djb2Fold (h : Nat) (bs : List Nat) : Nat := bs.foldl djb2Step h

/-- The 16-byte chunk loop of `src/hash_operations.cpp:23-33` (SSE2 path) and
`:35-45` (NEON path): while at least 16 bytes remain, load a 16-byte chunk and
update the hash byte by byte; afterwards run the scalar tail loop
(`:48-50`) over the remaining bytes. -/
def hashChunkLoop (h : Nat) (bs : List Nat) : Nat :=
  if 16 ≤ bs.length then hashChunkLoop (djb2Fold h (bs.take 16)) (bs.drop 16)
  else djb2Fold h bs
termination_by bs.length
decreasing_by simp only [List.length_drop]; omega

/-- `compute_hash` of `src/hash_operations.cpp`, x86 SSE2 path
(lines 22-33 plus tail 48-50): chunked 16-byte loads, per-byte DJB2 update. -/
def compute_hash_sse2 (data : List Nat) : Nat := hashChunkLoop 5381 data

/-- `compute_hash` of `src/hash_operations.cpp`, ARM NEON path
(lines 34-45 plus tail 48-50); its per-byte update order coincides with the
SSE2 path, so the embedded body is the same chunk loop. -/
def compute_hash_neon (data : List Nat) : Nat := hashChunkLoop 5381 data

/-- `compute_hash` of `src/hash_operations.cpp`, scalar fallback: only the
byte loop of lines 48-50. -/
def compute_hash_scalar (data : List Nat) : Nat := djb2Fold 5381 data

/-- Reference DJB2 hash, written from the spec's words (section 4.2):
"seed = 5381; for each byte b in the sequence, taken strictly in original
order, seed = seed×33 + b (unsigned 64-bit wraparound arithmetic)". -/
def djb2Spec (bs : List Nat) : Nat := bs.foldl (fun h b => (h * 33 + b) % U64) 5381

/-- One round of the reflected CRC-32 polynomial `0xEDB88320`
(ISO-HDLC, the polynomial of the A64 `CRC32B/W/X` instructions). -/
def crc32Round (v : Nat) : Nat := if v % 2 = 1 then (v / 2) ^^^ 0xEDB88320 else v / 2

/-- The A64 `CRC32B` instruction (`__crc32b(crc, b)`): xor the zero-extended
byte into the 32-bit accumulator and run 8 polynomial rounds. -/
def crc32b (crc b : Nat) : Nat := crc32Round^[8] ((crc ^^^ b) % 2 ^ 32)

/-- The 8-bytes-at-a-time loop of `src/main.cpp:143-147`: `__crc32d` on a
64-bit little-endian chunk, which processes the 8 data bytes in memory order
LSB-first and therefore equals folding `crc32b` over those 8 bytes.
Returns the accumulator and the unconsumed rest. -/
def crcLoop8 (crc : Nat) (bs : List Nat) : Nat × List Nat :=
  if 8 ≤ bs.length then crcLoop8 ((bs.take 8).foldl crc32b crc) (bs.drop 8)
  else (crc, bs)
termination_by bs.length
decreasing_by simp only [List.length_drop]; omega

/-- The 4-bytes-at-a-time loop of `src/main.cpp:150-154`: `__crc32w` on a
32-bit little-endian chunk = folding `crc32b` over those 4 bytes. -/
def crcLoop4 (crc : Nat) (bs : List Nat) : Nat × List Nat :=
  if 4 ≤ bs.length then crcLoop4 ((bs.take 4).foldl crc32b crc) (bs.drop 4)
  else (crc, bs)
termination_by bs.length
decreasing_by simp only [List.length_drop]; omega

/-- `compute_hash` of `src/main.cpp`, ARM CRC32 path (lines 138-166):
CRC32 accumulation over the buffer (8-, then 4-, then 1-byte chunks),
then a single DJB2 step folding the CRC into seed 5381
(`hash = ((hash << 5) + hash) + crc`). -/
def main_compute_hash_arm (data : List Nat) : Nat :=
  let p8 := crcLoop8 0 data
  let p4 := crcLoop4 p8.1 p8.2
  let crc := p4.2.foldl crc32b p4.1
  djb2Step 5381 crc

/-- `compute_hash` of `src/main.cpp`, non-ARM fallback (lines 168-173):
the plain byte loop. -/
def main_compute_hash_scalar (data : List Nat) : Nat := djb2Fold 5381 data

/-- C1: the hash is NOT architecture-invariant: on the empty byte sequence
the SSE2 path, the NEON path and both scalar fallbacks return the DJB2 seed
5381, but `main.cpp`'s ARM CRC32 path returns `((5381 << 5) + 5381) + 0 =
177573`, so the variants do not agree bit-exactly on every input. -/
theorem hash_variants_disagree_on_empty :
    compute_hash_sse2 [] = 5381 ∧ compute_hash_neon [] = 5381 ∧
    compute_hash_scalar [] = 5381 ∧ main_compute_hash_scalar [] = 5381 ∧
    main_compute_hash_arm [] = 177573 ∧
    main_compute_hash_arm [] ≠ compute_hash_scalar [] := by
  refine ⟨?_, ?_, ?_, ?_, ?_, ?_⟩ <;>
    simp [compute_hash_sse2, compute_hash_neon, compute_hash_scalar,
      main_compute_hash_scalar, main_compute_hash_arm, hashChunkLoop,
      crcLoop8, crcLoop4, djb2Fold, djb2Step, U64, Nat.shiftLeft_eq]

/-- C5: the DJB2 reference values of the claim hold (`hash([]) = 5381`,
`hash("a") = 177670`) and are met by the `hash_operations.cpp` variants and
`main.cpp`'s scalar fallback, but `main.cpp`'s ARM CRC32 path is not the DJB2
variant: already on the empty sequence it returns 177573 instead of 5381. -/
theorem arm_hash_is_not_djb2 :
    djb2Spec [] = 5381 ∧ djb2Spec [97] = 177670 ∧
    compute_hash_sse2 [97] = 177670 ∧ compute_hash_neon [97] = 177670 ∧
    compute_hash_scalar [97] = 177670 ∧ main_compute_hash_scalar [97] = 177670 ∧
    main_compute_hash_arm [] = 177573 ∧
    main_compute_hash_arm [] ≠ djb2Spec [] := by
  refine ⟨?_, ?_, ?_, ?_, ?_, ?_, ?_, ?_⟩ <;>
    simp [djb2Spec, compute_hash_sse2, compute_hash_neon, compute_hash_scalar,
      main_compute_hash_scalar, main_compute_hash_arm, hashChunkLoop,
      crcLoop8, crcLoop4, djb2Fold, djb2Step, U64, Nat.shiftLeft_eq]

/-! ## String search kernel

`src/string_search.cpp` (`simd_string_search`, lines 12-62) and
`src/main.cpp` (`naive_string_search`, lines 177-244). -/

/-- Full pattern comparison at start index `i`: the inner
`for (j = 0; j < pattern_len; j++) if (text[i + j] != pattern[j])` loop.
An access past the end of `text` (undefined behaviour in the source) is
totalized as `none`, which can never equal an in-range pattern character. -/
def matchAt (text pattern : List Char) (i : Nat) : Bool :=
  (List.range pattern.length).all fun j => text[i + j]? == pattern[j]?

/-- The brute-force double-loop reference: count candidate start indices
`i` from `0` to `text.length - pattern.length` at which the pattern matches.
This is also, verbatim, the scalar loop of `src/string_search.cpp:47-59`
run from `i = 0` (the non-x86 configuration of `simd_string_search`). -/
def bruteCount (text pattern : List Char) : Nat :=
  ((List.range (text.length - pattern.length + 1)).filter (matchAt text pattern)).length

/-- One 16-lane chunk of the SSE2 path of `src/string_search.cpp:28-44`:
for each bit position with `bit < 16 && i + bit <= text_len - pattern_len`,
count it when the first-character mask is set (`text[i+bit] == pattern[0]`)
and the verification loop `j = 1 .. pattern_len-1` succeeds. -/
def simdChunk (text pattern : List Char) (i : Nat) : Nat :=
  ((List.range 16).filter fun bit =>
    decide (i + bit ≤ text.length - pattern.length) &&
    (text[i + bit]? == pattern[0]?) &&
    ((List.range (pattern.length - 1)).all fun j =>
      text[i + bit + (j + 1)]? == pattern[j + 1]?)).length

/-- The scalar tail loop of `src/string_search.cpp:47-59`
(`for (; i <= text_len - pattern_len; i++)`), started at index `i`. -/
def scalarTail (text pattern : List Char) (i : Nat) : Nat :=
  ((List.range' i (text.length - pattern.length + 1 - i)).filter
    (matchAt text pattern)).length

/-- The SSE2 macro loop of `src/string_search.cpp:27-44`
(`for (; i + 16 <= text_len - pattern_len + 1; i += 16)`), followed by the
scalar tail loop. The first argument is recursion fuel, a structural upper
bound on the number of chunk iterations supplied at the call site; the loop
exits on its own condition before the fuel runs out. -/
def simdLoop (text pattern : List Char) : Nat → Nat → Nat → Nat
  | 0, i, count => count + scalarTail text pattern i
  | fuel + 1, i, count =>
    if i + 16 ≤ text.length - pattern.length + 1 then
      simdLoop text pattern fuel (i + 16) (count + simdChunk text pattern i)
    else count + scalarTail text pattern i

/-- `simd_string_search` of `src/string_search.cpp`: guard
`pattern_len == 0 || pattern_len > text_len → 0` (lines 17-19), then the
SSE2 chunk loop and scalar tail from `i = 0`. -/
def simd_string_search (text pattern : List Char) : Nat :=
  if pattern.length = 0 ∨ text.length < pattern.length then 0
  else simdLoop text pattern text.length 0 0

/-- The NEON block loop of `src/main.cpp:184-216` (pattern length ≥ 8):
`for (i = 0; i <= text_len - pattern_len; i += 16)` where the bound is
computed in `size_t` (no short-pattern guard precedes it); each round first
breaks when fewer than 16 text bytes remain (`remaining < 16`), else tests
whether any of the 16 loaded bytes equals `pattern[0]` and, if so, verifies
every position `j < 16` with `i + j <= text_len - pattern_len`.
The first `Nat` argument is recursion fuel, a structural upper bound on the
iteration count supplied at the call site. -/
def neonBlocks (text pattern : List Char) : Nat → Nat → Nat → Nat
  | 0, _, count => count
  | fuel + 1, i, count =>
    if i ≤ sub64 text.length pattern.length then
      if min 16 (text.length - i) < 16 then count
      else
        neonBlocks text pattern fuel (i + 16)
          (if (List.range 16).any (fun j => text[i + j]? == pattern[0]?) then
            count + ((List.range 16).filter fun j =>
              decide (i + j ≤ sub64 text.length pattern.length) &&
              (text[i + j]? == pattern[0]?) &&
              ((List.range (pattern.length - 1)).all fun k =>
                text[i + j + (k + 1)]? == pattern[k + 1]?)).length
          else count)
    else count

/-- `naive_string_search` of `src/main.cpp`, ARM path (lines 182-232):
NEON block loop for patterns of length ≥ 8, otherwise the standard loop
`for (i = 0; i <= text_len - pattern_len; i++)` whose bound is computed in
`size_t` with no emptiness or length guard. The fuel passed to `neonBlocks`
is the exact bound `⌊(text_len - pattern_len)/16⌋ + 1` on its iterations. -/
def naive_string_search_arm (text pattern : List Char) : Nat :=
  if 8 ≤ pattern.length then
    neonBlocks text pattern (sub64 text.length pattern.length / 16 + 1) 0 0
  else ((List.range (sub64 text.length pattern.length + 1)).filter
    (matchAt text pattern)).length

/-- `naive_string_search` of `src/main.cpp`, non-ARM fallback (lines 234-243):
the standard loop with the unguarded `size_t` bound `text_len - pattern_len`. -/
def naive_string_search_generic (text pattern : List Char) : Nat :=
  ((List.range (sub64 text.length pattern.length + 1)).filter
    (matchAt text pattern)).length

/-- C2: `simd_string_search` returns 0 on an empty pattern, but `main.cpp`'s
`naive_string_search` has no guard: on text `"ab"` and pattern `""` both of
its configurations count a vacuous match at every start index `0..text_len`
and return 3, not 0. -/
theorem naive_search_empty_pattern_not_zero :
    simd_string_search "ab".toList "".toList = 0 ∧
    naive_string_search_arm "ab".toList "".toList = 3 ∧
    naive_string_search_generic "ab".toList "".toList = 3 ∧
    naive_string_search_arm "ab".toList "".toList ≠ 0 := by
  have h1 : simd_string_search "ab".toList "".toList = 0 := by
    simp [simd_string_search]
  have h2 : naive_string_search_arm "ab".toList "".toList = 3 := by
    simp [naive_string_search_arm, sub64, U64]; decide
  have h3 : naive_string_search_generic "ab".toList "".toList = 3 := by
    simp [naive_string_search_generic, sub64, U64]; decide
  exact ⟨h1, h2, h3, by rw [h2]; omega⟩

/-- C3: the variants do NOT all equal the brute-force reference. On the
40-character text of 32 spaces followed by `"abcdefgh"` with pattern
`"abcdefgh"` (length 8, so `main.cpp`'s ARM path takes the NEON block loop),
the match at start index 32 lies in the final partial 16-byte block, which
the NEON loop abandons (`remaining < 16 → break`): it returns 0 while the
brute-force reference and `simd_string_search` return 1. -/
theorem neon_search_misses_final_block :
    naive_string_search_arm (List.replicate 32 ' ' ++ "abcdefgh".toList)
      "abcdefgh".toList = 0 ∧
    bruteCount (List.replicate 32 ' ' ++ "abcdefgh".toList) "abcdefgh".toList = 1 ∧
    simd_string_search (List.replicate 32 ' ' ++ "abcdefgh".toList)
      "abcdefgh".toList = 1 ∧
    naive_string_search_arm (List.replicate 32 ' ' ++ "abcdefgh".toList)
      "abcdefgh".toList ≠
      bruteCount (List.replicate 32 ' ' ++ "abcdefgh".toList) "abcdefgh".toList := by
  refine ⟨?_, ?_, ?_, ?_⟩ <;> decide

/-! ### Equivalence of the SSE2 search path with the brute-force reference -/

theorem list_all_congr {l : List Nat} {f g : Nat → Bool}
    (h : ∀ a ∈ l, f a = g a) : l.all f = l.all g := by
  induction l with
  | nil => rfl
  | cons a l ih =>
    simp only [List.all_cons, h a (List.mem_cons_self a l),
      ih fun b hb => h b (List.mem_cons_of_mem a hb)]

/-- Splitting the full comparison into the first-character test and the
verification loop over positions `1 .. pattern_len - 1`. -/
theorem matchAt_first_split {text pattern : List Char} {i : Nat}
    (hp : 1 ≤ pattern.length) :
    matchAt text pattern i =
      ((text[i]? == pattern[0]?) &&
        (List.range (pattern.length - 1)).all fun j =>
          text[i + (j + 1)]? == pattern[j + 1]?) := by
  obtain ⟨m, hm⟩ : ∃ m, pattern.length = m + 1 :=
    ⟨pattern.length - 1, by omega⟩
  rw [matchAt, hm, List.range_succ_eq_map, List.all_cons, List.all_map]
  simp only [Nat.add_zero, hm, Nat.add_sub_cancel]
  rfl

/-- Inside a full chunk (`i + 16 ≤ text_len - pattern_len + 1`) the
position-bound test of the bit loop is always true and the masked
verification equals the full comparison, so a chunk counts exactly the
matches at start indices `i .. i + 15`. -/
theorem simdChunk_eq {text pattern : List Char} {i : Nat}
    (hp : 1 ≤ pattern.length)
    (hi : i + 16 ≤ text.length - pattern.length + 1) :
    simdChunk text pattern i =
      ((List.range' i 16).filter (matchAt text pattern)).length := by
  rw [simdChunk, List.range'_eq_map_range, List.filter_map, List.length_map]
  congr 1
  apply List.filter_congr
  intro bit hbit
  rw [List.mem_range] at hbit
  have hb : i + bit ≤ text.length - pattern.length := by omega
  simp only [Function.comp, hb, decide_True, Bool.true_and]
  exact (matchAt_first_split hp).symm

/-- The chunk loop plus scalar tail counts all matches from start index `i`
on, for every fuel value (the fuel-exhausted base case is the scalar tail,
which the loop itself runs after its last full chunk). -/
theorem simdLoop_eq {text pattern : List Char} (hp : 1 ≤ pattern.length) :
    ∀ (fuel i count : Nat),
      simdLoop text pattern fuel i count = count + scalarTail text pattern i := by
  intro fuel
  induction fuel with
  | zero => intro i count; rfl
  | succ fuel ih =>
    intro i count
    rw [simdLoop]
    by_cases hc : i + 16 ≤ text.length - pattern.length + 1
    · rw [if_pos hc, ih, simdChunk_eq hp hc]
      have happ := List.range'_append_1 i 16
        (text.length - pattern.length + 1 - (i + 16))
      have hsplit : scalarTail text pattern i =
          ((List.range' i 16).filter (matchAt text pattern)).length +
            scalarTail text pattern (i + 16) := by
        rw [scalarTail, scalarTail,
          show text.length - pattern.length + 1 - i =
            text.length - pattern.length + 1 - (i + 16) + 16 by omega,
          ← happ, List.filter_append, List.length_append]
      rw [hsplit]; omega
    · rw [if_neg hc]

/-- For a nonempty pattern no longer than the text, `simd_string_search`
(SSE2 chunk loop, first-character mask, scalar tail) returns exactly the
brute-force double-loop reference count. -/
theorem simd_string_search_eq_bruteCount {text pattern : List Char}
    (hp : 1 ≤ pattern.length) (hlen : pattern.length ≤ text.length) :
    simd_string_search text pattern = bruteCount text pattern := by
  rw [simd_string_search, if_neg (by omega), simdLoop_eq hp, scalarTail,
    bruteCount, Nat.zero_add, Nat.sub_zero, List.range_eq_range']

/-- Closed witness for `simd_string_search_eq_bruteCount` at text `"abab"`,
pattern `"ab"`. -/
theorem simd_string_search_eq_bruteCount_witness :
    1 ≤ "ab".toList.length ∧ "ab".toList.length ≤ "abab".toList.length ∧
    simd_string_search "abab".toList "ab".toList =
      bruteCount "abab".toList "ab".toList :=
  ⟨by decide, by decide,
    simd_string_search_eq_bruteCount (by decide) (by decide)⟩

/-! ### The end-to-end 100,000 × "The quick brown fox ..." scenario -/

/-- The 45-character unit the benchmark text is built from. -/
def unitText : List Char := "The quick brown fox jumps over the lazy dog. ".toList

/-- The pattern of the end-to-end scenario. -/
def foxPat : List Char := "fox".toList

/-- `n` concatenated copies of a unit (the benchmark builds its text by
appending the unit 100,000 times). -/
def repeatText (u : List Char) : Nat → List Char
  | 0 => []
  | n + 1 => u ++ repeatText u n

theorem length_repeatText (u : List Char) :
    ∀ n, (repeatText u n).length = n * u.length := by
  intro n
  induction n with
  | zero => simp [repeatText]
  | succ n ih => rw [repeatText, List.length_append, ih]; ring

/-- A comparison lying entirely inside the left part of an append. -/
theorem matchAt_append_left {u r pattern : List Char} {i : Nat}
    (h : i + pattern.length ≤ u.length) :
    matchAt (u ++ r) pattern i = matchAt u pattern i := by
  rw [matchAt, matchAt]
  apply list_all_congr
  intro j hj
  rw [List.mem_range] at hj
  rw [List.getElem?_append_left (by omega)]

/-- A comparison starting past the left part of an append. -/
theorem matchAt_append_right {u r pattern : List Char} {i : Nat} :
    matchAt (u ++ r) pattern (u.length + i) = matchAt r pattern i := by
  rw [matchAt, matchAt]
  apply list_all_congr
  intro j hj
  rw [show u.length + i + j = u.length + (i + j) by omega,
    List.getElem?_append_right (by omega), Nat.add_sub_cancel_left]

/-- Prepending one unit to any text of length ≥ 3 adds exactly one
occurrence of `"fox"`: the unit holds one occurrence (start index 16), and
no occurrence can straddle the boundary because the characters at start
indices 43 and 44 of the unit are `'.'` and `' '`, not `'f'`. -/
theorem bruteCount_unit_cons {r : List Char} (hr : 3 ≤ r.length) :
    bruteCount (unitText ++ r) foxPat = 1 + bruteCount r foxPat := by
  have hu : unitText.length = 45 := by decide
  have hf : foxPat.length = 3 := by decide
  have ha := List.range'_append_1 0 45 (r.length - 2)
  have hb := List.range'_append_1 0 43 2
  norm_num at ha hb
  rw [bruteCount, List.length_append, hu, hf,
    show 45 + r.length - 3 + 1 = r.length - 2 + 45 by omega,
    List.range_eq_range', ← ha, ← hb, List.filter_append, List.filter_append,
    List.length_append, List.length_append]
  have hcongr : ∀ i ∈ List.range' 0 43,
      matchAt (unitText ++ r) foxPat i = matchAt unitText foxPat i := by
    intro i hi
    rw [List.mem_range'] at hi
    obtain ⟨k, hk, rfl⟩ := hi
    exact matchAt_append_left
      (show 0 + 1 * k + foxPat.length ≤ unitText.length by rw [hf, hu]; omega)
  have h1 : ((List.range' 0 43).filter (matchAt (unitText ++ r) foxPat)).length
      = 1 := by
    rw [List.filter_congr hcongr]
    decide
  have h43 : matchAt (unitText ++ r) foxPat 43 = false := by
    rw [matchAt_first_split (show 1 ≤ foxPat.length by rw [hf]; omega),
      List.getElem?_append_left (show 43 < unitText.length by rw [hu]; omega),
      show (unitText[(43 : Nat)]? == foxPat[0]?) = false by decide,
      Bool.false_and]
  have h44 : matchAt (unitText ++ r) foxPat 44 = false := by
    rw [matchAt_first_split (show 1 ≤ foxPat.length by rw [hf]; omega),
      List.getElem?_append_left (show 44 < unitText.length by rw [hu]; omega),
      show (unitText[(44 : Nat)]? == foxPat[0]?) = false by decide,
      Bool.false_and]
  have h2 : ((List.range' 43 2).filter (matchAt (unitText ++ r) foxPat)).length
      = 0 := by
    rw [show List.range' 43 2 = [43, 44] from rfl]
    simp [List.filter, h43, h44]
  have h3 : ((List.range' 45 (r.length - 2)).filter
      (matchAt (unitText ++ r) foxPat)).length = bruteCount r foxPat := by
    rw [List.range'_eq_map_range, List.filter_map, List.length_map,
      bruteCount, hf, show r.length - 3 + 1 = r.length - 2 by omega]
    congr 1
    apply List.filter_congr
    intro i _
    show matchAt (unitText ++ r) foxPat (45 + i) = matchAt r foxPat i
    rw [← hu, matchAt_append_right]
  rw [h1, h2, h3]

/-- Exactly `n + 1` occurrences of `"fox"` in `n + 1` units. -/
theorem bruteCount_repeatText :
    ∀ n, bruteCount (repeatText unitText (n + 1)) foxPat = n + 1 := by
  intro n
  induction n with
  | zero =>
    rw [repeatText, repeatText, List.append_nil]
    decide
  | succ n ih =>
    rw [repeatText,
      bruteCount_unit_cons (by
        rw [length_repeatText, show unitText.length = 45 from by decide]
        omega),
      ih]
    omega

/-- `size_t` subtraction does not wrap when the subtrahend is no larger. -/
theorem sub64_eq_sub {a b : Nat} (hb : b ≤ a) (ha : a < U64) :
    sub64 a b = a - b := by
  rw [sub64, show a + U64 - b = U64 + (a - b) by omega, Nat.add_mod_left,
    Nat.mod_eq_of_lt (by omega)]

/-- C9: on the benchmark text of 100,000 concatenated copies of
`"The quick brown fox jumps over the lazy dog. "` with pattern `"fox"`,
every search variant returns exactly 100,000: `simd_string_search` (via its
equivalence with the brute-force reference) and both configurations of
`main.cpp`'s `naive_string_search`, which take the short-pattern standard
loop because the pattern has length 3 < 8. -/
theorem search_fox_100000 :
    simd_string_search (repeatText unitText 100000) foxPat = 100000 ∧
    naive_string_search_arm (repeatText unitText 100000) foxPat = 100000 ∧
    naive_string_search_generic (repeatText unitText 100000) foxPat = 100000 := by
  have hf : foxPat.length = 3 := by decide
  have hlen : (repeatText unitText 100000).length = 4500000 := by
    rw [length_repeatText, show unitText.length = 45 from by decide]
  have hb : bruteCount (repeatText unitText 100000) foxPat = 100000 := by
    have h := bruteCount_repeatText 99999
    norm_num at h
    exact h
  have hgen : naive_string_search_generic (repeatText unitText 100000) foxPat
      = 100000 := by
    rw [naive_string_search_generic,
      sub64_eq_sub (by omega) (by rw [hlen]; norm_num [U64])]
    rw [← bruteCount]
    exact hb
  refine ⟨?_, ?_, hgen⟩
  · rw [simd_string_search_eq_bruteCount (by omega) (by omega)]
    exact hb
  · rw [naive_string_search_arm, if_neg (by omega)]
    rw [sub64_eq_sub (by omega) (by rw [hlen]; norm_num [U64])]
    rw [← bruteCount]
    exact hb

/-! ## Memory copy kernel

`src/memory_operations.cpp` (`fast_memcpy`, lines 13-30) and
`src/main.cpp` (`slow_memcpy`, lines 247-281). Destination and source are
separate byte-addressed buffers `Nat → Nat` (the kernels' documented
precondition makes them disjoint), and a copy returns the new destination;
the source is an immutable input. -/

/-- A single byte store `d[i] = s[i]`. -/
def writeByte (d : Nat → Nat) (i v : Nat) : Nat → Nat :=
  fun j => if j = i then v else d j

/-- A `w`-byte vector store of the chunk loaded from the source at offset
`i` (`_mm_storeu_si128` / `vst1q_u8` / `vst1_u64`): `d[i..i+w) = s[i..i+w)`. -/
def writeChunk (d s : Nat → Nat) (i w : Nat) : Nat → Nat :=
  fun j => if i ≤ j ∧ j < i + w then s j else d j

/-- The final byte loop (`for (; i < n; i++) d[i] = s[i];`), returning the
updated destination. -/
def byteLoop (d s : Nat → Nat) (i n : Nat) : Nat → Nat :=
  if i < n then byteLoop (writeByte d i (s i)) s (i + 1) n else d
termination_by n - i
decreasing_by omega

/-- The 16-byte chunk loop (`for (; i + 16 <= n; i += 16)` in `fast_memcpy`;
`for (; i + 15 < n; i += 16)` in `slow_memcpy`, the same condition),
returning the updated destination and the final index. -/
def chunkLoop16 (d s : Nat → Nat) (i n : Nat) : (Nat → Nat) × Nat :=
  if i + 16 ≤ n then chunkLoop16 (writeChunk d s i 16) s (i + 16) n else (d, i)
termination_by n - i
decreasing_by omega

/-- The 8-byte chunk loop of `slow_memcpy` (`for (; i + 7 < n; i += 8)`). -/
def chunkLoop8 (d s : Nat → Nat) (i n : Nat) : (Nat → Nat) × Nat :=
  if i + 8 ≤ n then chunkLoop8 (writeChunk d s i 8) s (i + 8) n else (d, i)
termination_by n - i
decreasing_by omega

/-- `fast_memcpy` of `src/memory_operations.cpp`: the SSE2 16-byte chunk
loop, then the byte tail loop (the non-x86 configuration is the byte loop
alone, i.e. the same function with the chunk loop exiting at once). -/
def fast_memcpy (d s : Nat → Nat) (n : Nat) : Nat → Nat :=
  byteLoop (chunkLoop16 d s 0 n).1 s (chunkLoop16 d s 0 n).2 n

/-- `slow_memcpy` of `src/main.cpp`, ARM path: NEON 16-byte chunks, then
8-byte chunks, then the byte tail loop (the non-ARM fallback is the byte
loop alone). -/
def slow_memcpy (d s : Nat → Nat) (n : Nat) : Nat → Nat :=
  byteLoop
    (chunkLoop8 (chunkLoop16 d s 0 n).1 s (chunkLoop16 d s 0 n).2 n).1 s
    (chunkLoop8 (chunkLoop16 d s 0 n).1 s (chunkLoop16 d s 0 n).2 n).2 n

theorem byteLoop_eq (s : Nat → Nat) (n : Nat) :
    ∀ (k : Nat) (d : Nat → Nat) (i : Nat), n - i ≤ k →
      ∀ j, byteLoop d s i n j = if i ≤ j ∧ j < n then s j else d j := by
  intro k
  induction k with
  | zero =>
    intro d i hk j
    rw [byteLoop, if_neg (by omega), if_neg (by omega)]
  | succ k ih =>
    intro d i hk j
    rw [byteLoop]
    by_cases hc : i < n
    · rw [if_pos hc, ih _ _ (by omega), writeByte]
      by_cases hj : j = i
      · subst hj
        rw [if_neg (by omega), if_pos (by omega), if_pos (by omega)]
      · by_cases h1 : i + 1 ≤ j ∧ j < n
        · rw [if_pos h1, if_pos (by omega)]
        · rw [if_neg h1, if_neg hj, if_neg (by omega)]
    · rw [if_neg hc, if_neg (by omega)]

theorem chunkLoop16_eq (s : Nat → Nat) (n : Nat) :
    ∀ (k : Nat) (d : Nat → Nat) (i : Nat), n - i ≤ k → i ≤ n →
      i ≤ (chunkLoop16 d s i n).2 ∧ (chunkLoop16 d s i n).2 ≤ n ∧
      ∀ j, (chunkLoop16 d s i n).1 j =
        if i ≤ j ∧ j < (chunkLoop16 d s i n).2 then s j else d j := by
  intro k
  induction k with
  | zero =>
    intro d i hk hin
    rw [chunkLoop16, if_neg (by omega)]
    exact ⟨Nat.le_refl i, hin, fun j => by rw [if_neg (by omega)]⟩
  | succ k ih =>
    intro d i hk hin
    rw [chunkLoop16]
    by_cases hc : i + 16 ≤ n
    · rw [if_pos hc]
      obtain ⟨h1, h2, h3⟩ := ih (writeChunk d s i 16) (i + 16) (by omega) hc
      refine ⟨by omega, h2, fun j => ?_⟩
      rw [h3 j, writeChunk]
      by_cases ha : i + 16 ≤ j ∧ j < (chunkLoop16 (writeChunk d s i 16) s (i + 16) n).2
      · rw [if_pos ha, if_pos (by omega)]
      · by_cases hb : i ≤ j ∧ j < i + 16
        · rw [if_neg ha, if_pos hb, if_pos (by omega)]
        · rw [if_neg ha, if_neg hb, if_neg (by omega)]
    · rw [if_neg hc]
      exact ⟨Nat.le_refl i, hin, fun j => by rw [if_neg (by omega)]⟩

theorem chunkLoop8_eq (s : Nat → Nat) (n : Nat) :
    ∀ (k : Nat) (d : Nat → Nat) (i : Nat), n - i ≤ k → i ≤ n →
      i ≤ (chunkLoop8 d s i n).2 ∧ (chunkLoop8 d s i n).2 ≤ n ∧
      ∀ j, (chunkLoop8 d s i n).1 j =
        if i ≤ j ∧ j < (chunkLoop8 d s i n).2 then s j else d j := by
  intro k
  induction k with
  | zero =>
    intro d i hk hin
    rw [chunkLoop8, if_neg (by omega)]
    exact ⟨Nat.le_refl i, hin, fun j => by rw [if_neg (by omega)]⟩
  | succ k ih =>
    intro d i hk hin
    rw [chunkLoop8]
    by_cases hc : i + 8 ≤ n
    · rw [if_pos hc]
      obtain ⟨h1, h2, h3⟩ := ih (writeChunk d s i 8) (i + 8) (by omega) hc
      refine ⟨by omega, h2, fun j => ?_⟩
      rw [h3 j, writeChunk]
      by_cases ha : i + 8 ≤ j ∧ j < (chunkLoop8 (writeChunk d s i 8) s (i + 8) n).2
      · rw [if_pos ha, if_pos (by omega)]
      · by_cases hb : i ≤ j ∧ j < i + 8
        · rw [if_neg ha, if_pos hb, if_pos (by omega)]
        · rw [if_neg ha, if_neg hb, if_neg (by omega)]
    · rw [if_neg hc]
      exact ⟨Nat.le_refl i, hin, fun j => by rw [if_neg (by omega)]⟩

/-- Both copy routines behave as `d[j] = if j < n then s j else d j`. -/
theorem memcpy_eq (d s : Nat → Nat) (n j : Nat) :
    fast_memcpy d s n j = (if j < n then s j else d j) ∧
    slow_memcpy d s n j = (if j < n then s j else d j) := by
  obtain ⟨h161, h162, h163⟩ :=
    chunkLoop16_eq s n n d 0 (by omega) (by omega)
  constructor
  · rw [fast_memcpy, byteLoop_eq s n n _ _ (by omega), h163 j]
    split_ifs <;> first | rfl | omega
  · obtain ⟨h81, h82, h83⟩ :=
      chunkLoop8_eq s n n (chunkLoop16 d s 0 n).1 (chunkLoop16 d s 0 n).2
        (by omega) h162
    rw [slow_memcpy, byteLoop_eq s n n _ _ (by omega), h83 j, h163 j]
    split_ifs <;> first | rfl | omega

/-- C6: after `copy(dest, src, n)` every byte of `dest[0..n)` equals the
corresponding byte of `src`, for both `fast_memcpy` and `slow_memcpy`,
whatever the chunking. -/
theorem memcpy_copies_prefix (d s : Nat → Nat) (n j : Nat) (h : j < n) :
    fast_memcpy d s n j = s j ∧ slow_memcpy d s n j = s j := by
  obtain ⟨h1, h2⟩ := memcpy_eq d s n j
  rw [h1, h2, if_pos h]
  exact ⟨rfl, rfl⟩

/-- Closed witness for `memcpy_copies_prefix` at `n = 17`, `j = 16`. -/
theorem memcpy_copies_prefix_witness :
    16 < 17 ∧
    (fast_memcpy (fun _ => 0) (fun k => k) 17 16 = 16 ∧
      slow_memcpy (fun _ => 0) (fun k => k) 17 16 = 16) :=
  ⟨by decide, memcpy_copies_prefix (fun _ => 0) (fun k => k) 17 16 (by decide)⟩

/-- C10: neither copy routine writes outside `dest[0..n)`: every
destination byte at index `≥ n` is unchanged (and the source, an immutable
input of the embedding, cannot be modified at all). -/
theorem memcpy_frame (d s : Nat → Nat) (n j : Nat) (h : n ≤ j) :
    fast_memcpy d s n j = d j ∧ slow_memcpy d s n j = d j := by
  obtain ⟨h1, h2⟩ := memcpy_eq d s n j
  rw [h1, h2, if_neg (by omega)]
  exact ⟨rfl, rfl⟩

/-- Closed witness for `memcpy_frame` at `n = 17`, `j = 20`. -/
theorem memcpy_frame_witness :
    17 ≤ 20 ∧
    (fast_memcpy (fun _ => 9) (fun k => k) 17 20 = 9 ∧
      slow_memcpy (fun _ => 9) (fun k => k) 17 20 = 9) :=
  ⟨by decide, memcpy_frame (fun _ => 9) (fun k => k) 17 20 (by decide)⟩

/-! ## Polynomial evaluation kernel

`src/polynomial_eval.cpp` (`polynomial_eval_sse`, lines 16-85) and
`src/main.cpp` (`polynomial_eval`, lines 284-309), over exact rational
arithmetic. -/

/-- The two-coefficients-per-step loop of `polynomial_eval_sse`
(`src/polynomial_eval.cpp:27-32` on x86, identically `:56-63` on NEON):
lanes `r0, r1` accumulate `coeffs[i]·p0` and `coeffs[i+1]·p1`, the power
lanes `p0, p1` advance by `x·x` per step; on exit, horizontal add `r0 + r1`
and, when one (odd) coefficient is left, fold in `coeffs[i]·p0`
(lines 35-45 / 66-73). -/
def polyPairLoop (x : ℚ) (coeffs : List ℚ) (i : Nat) (r0 r1 p0 p1 : ℚ) : ℚ :=
  if i + 1 < coeffs.length then
    polyPairLoop x coeffs (i + 2) (r0 + coeffs.getD i 0 * p0)
      (r1 + coeffs.getD (i + 1) 0 * p1) (p0 * (x * x)) (p1 * (x * x))
  else (r0 + r1) + (if i < coeffs.length then coeffs.getD i 0 * p0 else 0)
termination_by coeffs.length - i
decreasing_by omega

/-- `polynomial_eval_sse` of `src/polynomial_eval.cpp`, vectorized two-lane
path (the SSE2 and NEON variants perform the same exact-arithmetic
operations): result lanes start at `0`, power lanes at `(1, x)`. -/
def polynomial_eval_sse (x : ℚ) (coeffs : List ℚ) : ℚ :=
  polyPairLoop x coeffs 0 0 0 1 x

/-- The scalar accumulation loop
(`result += coeffs[i] * power; power *= x;`), traversing the coefficients
in order with the running power. -/
def polyAccLoop (x : ℚ) : List ℚ → ℚ → ℚ → ℚ
  | [], r, _ => r
  | c :: rest, r, p => polyAccLoop x rest (r + c * p) (p * x)

/-- `polynomial_eval_sse` of `src/polynomial_eval.cpp`, scalar fallback
(lines 76-84). -/
def polynomial_eval_scalar (x : ℚ) (coeffs : List ℚ) : ℚ :=
  polyAccLoop x coeffs 0 1

/-- `polynomial_eval` of `src/main.cpp` (lines 284-309): the ARM path's
`__builtin_fma(coeffs[i], power, result)` equals `result + coeffs[i]*power`
exactly over ℚ, so the ARM and fallback paths are the same accumulation. -/
def main_polynomial_eval (x : ℚ) (coeffs : List ℚ) : ℚ :=
  polyAccLoop x coeffs 0 1

/-- The spec's reference value `Σ_i coeffs[i]·x^i`. -/
def polySum (x : ℚ) (coeffs : List ℚ) : ℚ :=
  ((List.range coeffs.length).map fun t => coeffs.getD t 0 * x ^ t).sum

theorem polyAccLoop_eq (x : ℚ) :
    ∀ (c : List ℚ) (r p : ℚ),
      polyAccLoop x c r p =
        r + ((List.range c.length).map fun t => c.getD t 0 * (p * x ^ t)).sum := by
  intro c
  induction c with
  | nil => intro r p; simp [polyAccLoop]
  | cons c0 rest ih =>
    intro r p
    rw [polyAccLoop, ih, List.length_cons, List.range_succ_eq_map,
      List.map_cons, List.map_map, List.sum_cons]
    have hmap :
        List.map ((fun t => (c0 :: rest).getD t 0 * (p * x ^ t)) ∘ Nat.succ)
          (List.range rest.length) =
        List.map (fun t => rest.getD t 0 * (p * x * x ^ t))
          (List.range rest.length) := by
      apply List.map_congr_left
      intro t _
      show (c0 :: rest).getD (t + 1) 0 * (p * x ^ (t + 1)) =
        rest.getD t 0 * (p * x * x ^ t)
      rw [List.getD_cons_succ, pow_succ]
      ring
    rw [hmap, List.getD_cons_zero, pow_zero]
    ring

theorem polyPairLoop_eq (x : ℚ) (coeffs : List ℚ) :
    ∀ (k i : Nat), coeffs.length - i ≤ k → ∀ (r0 r1 : ℚ),
      polyPairLoop x coeffs i r0 r1 (x ^ i) (x ^ (i + 1)) =
        r0 + r1 + ((List.range' i (coeffs.length - i)).map
          fun t => coeffs.getD t 0 * x ^ t).sum := by
  intro k
  induction k with
  | zero =>
    intro i hk r0 r1
    rw [polyPairLoop, if_neg (by omega), if_neg (by omega),
      show coeffs.length - i = 0 by omega]
    simp
  | succ k ih =>
    intro i hk r0 r1
    rw [polyPairLoop]
    by_cases hc : i + 1 < coeffs.length
    · rw [if_pos hc,
        show x ^ i * (x * x) = x ^ (i + 2) by ring,
        show x ^ (i + 1) * (x * x) = x ^ (i + 2 + 1) by ring,
        ih (i + 2) (by omega)]
      have happ := List.range'_append_1 i 2 (coeffs.length - (i + 2))
      rw [show coeffs.length - i = coeffs.length - (i + 2) + 2 by omega,
        ← happ, List.map_append, List.sum_append,
        show List.range' i 2 = [i, i + 1] from rfl]
      simp only [List.map_cons, List.map_nil, List.sum_cons, List.sum_nil]
      ring
    · rw [if_neg hc]
      by_cases hi : i < coeffs.length
      · rw [if_pos hi, show coeffs.length - i = 1 by omega,
          show List.range' i 1 = [i] from rfl]
        simp only [List.map_cons, List.map_nil, List.sum_cons, List.sum_nil]
        ring
      · rw [if_neg hi, show coeffs.length - i = 0 by omega]
        simp only [List.range'_zero, List.map_nil, List.sum_nil]

/-- C7: every polynomial-evaluation variant — the vectorized two-lane path
with its odd-length leftover handling, the scalar fallback, and `main.cpp`'s
accumulation — computes exactly `Σ_i coeffs[i]·x^i` over exact arithmetic,
and the empty coefficient sequence yields exactly 0 (the functions are
total: no error condition exists). -/
theorem polynomial_eval_correct (x : ℚ) (coeffs : List ℚ) :
    polynomial_eval_sse x coeffs = polySum x coeffs ∧
    polynomial_eval_scalar x coeffs = polySum x coeffs ∧
    main_polynomial_eval x coeffs = polySum x coeffs ∧
    polynomial_eval_sse x [] = 0 ∧ polynomial_eval_scalar x [] = 0 ∧
    main_polynomial_eval x [] = 0 := by
  have hacc : polyAccLoop x coeffs 0 1 = polySum x coeffs := by
    rw [polyAccLoop_eq, polySum]
    simp only [one_mul, zero_add]
  have hsse : polynomial_eval_sse x coeffs = polySum x coeffs := by
    have h := polyPairLoop_eq x coeffs coeffs.length 0 (by omega) 0 0
    rw [pow_zero, pow_one, Nat.sub_zero] at h
    rw [polynomial_eval_sse, h, polySum, List.range_eq_range']
    ring
  refine ⟨hsse, hacc, hacc, ?_, rfl, rfl⟩
  rw [polynomial_eval_sse, polyPairLoop]
  simp

/-! ## Matrix multiply kernel

`src/matrix_operations.cpp` (`Matrix::multiply`, lines 34-108) and
`src/main.cpp` (`Matrix::multiply`, lines 46-98), over exact rational
arithmetic. -/

/-- The `Matrix` data model: row count, column count, and the row-major
grid of entries (zero outside the allocated `rows × cols` storage, as the
constructor zero-fills). -/
structure Matrix where
  rows : Nat
  cols : Nat
  data : Nat → Nat → ℚ

/-- The message of the `std::runtime_error` thrown on a dimension mismatch. -/
def invalidDimMsg : String := "Invalid matrix dimensions for multiplication"

/-- The two-elements-per-step reduction loop for one result entry
(`src/matrix_operations.cpp:42-67` SSE2, `:70-95` NEON, and
`src/main.cpp:54-81`): two partial-sum lanes accumulate the products at
`k` and `k+1` (`vfmaq_f64` being exact multiply-add over ℚ), then a
horizontal add and a scalar tail for a leftover odd element. -/
def mulPairLoop (A B : Matrix) (i j k : Nat) (l0 l1 : ℚ) : ℚ :=
  if k + 1 < A.cols then
    mulPairLoop A B i j (k + 2) (l0 + A.data i k * B.data k j)
      (l1 + A.data i (k + 1) * B.data (k + 1) j)
  else (l0 + l1) + (if k < A.cols then A.data i k * B.data k j else 0)
termination_by A.cols - k
decreasing_by omega

/-- The scalar triple-loop dot product for one result entry
(`src/matrix_operations.cpp:98-106` and `src/main.cpp:84-93`). -/
def dotScalar (A B : Matrix) (i j : Nat) : ℚ :=
  (List.range A.cols).foldl (fun sum k => sum + A.data i k * B.data k j) 0

/-- `Matrix::multiply`, vectorized paths: dimension guard
(`if (cols != other.rows) throw std::runtime_error(...)`), then a fresh
zero-filled `rows × other.cols` result whose in-range entries are computed
by the pair-reduction loop. -/
def Matrix.multiply_simd (A B : Matrix) : Except String Matrix :=
  if A.cols ≠ B.rows then Except.error invalidDimMsg
  else Except.ok ⟨A.rows, B.cols, fun i j =>
    if i < A.rows ∧ j < B.cols then mulPairLoop A B i j 0 0 0 else 0⟩

/-- `Matrix::multiply`, scalar fallback: same guard, entries by the
triple-loop dot product. -/
def Matrix.multiply_scalar (A B : Matrix) : Except String Matrix :=
  if A.cols ≠ B.rows then Except.error invalidDimMsg
  else Except.ok ⟨A.rows, B.cols, fun i j =>
    if i < A.rows ∧ j < B.cols then dotScalar A B i j else 0⟩

/-- C4: both multiply variants fail with the Invalid-Dimension error exactly
when the left operand's column count differs from the right operand's row
count, producing no result matrix in that case and a new `Except.ok` matrix
otherwise; being pure functions of their (const-reference) operands, they
mutate nothing. -/
theorem multiply_dimension_guard (A B : Matrix) :
    ((Matrix.multiply_simd A B).isOk = true ↔ A.cols = B.rows) ∧
    ((Matrix.multiply_scalar A B).isOk = true ↔ A.cols = B.rows) ∧
    (A.cols ≠ B.rows →
      Matrix.multiply_simd A B = Except.error invalidDimMsg ∧
      Matrix.multiply_scalar A B = Except.error invalidDimMsg) := by
  rw [Matrix.multiply_simd, Matrix.multiply_scalar]
  by_cases h : A.cols = B.rows
  · rw [if_neg (by omega), if_neg (by omega)]
    refine ⟨⟨fun _ => h, fun _ => rfl⟩, ⟨fun _ => h, fun _ => rfl⟩, fun hne => absurd h hne⟩
  · rw [if_pos h, if_pos h]
    exact ⟨⟨fun hk => by simp [Except.isOk, Except.toBool] at hk, fun hk => absurd hk h⟩,
      ⟨fun hk => by simp [Except.isOk, Except.toBool] at hk, fun hk => absurd hk h⟩,
      fun _ => ⟨rfl, rfl⟩⟩

/-- Closed witness for `multiply_dimension_guard`: a matching 2×3 · 3×2
pair succeeds, and a mismatched 2×3 · 2×2 pair raises the
Invalid-Dimension error. -/
theorem multiply_dimension_guard_witness :
    (Matrix.multiply_simd ⟨2, 3, fun _ _ => 1⟩ ⟨3, 2, fun _ _ => 1⟩).isOk = true ∧
    Matrix.multiply_simd ⟨2, 3, fun _ _ => 1⟩ ⟨2, 2, fun _ _ => 1⟩ =
      Except.error invalidDimMsg :=
  ⟨(multiply_dimension_guard ⟨2, 3, fun _ _ => 1⟩ ⟨3, 2, fun _ _ => 1⟩).1.mpr rfl,
    ((multiply_dimension_guard ⟨2, 3, fun _ _ => 1⟩ ⟨2, 2, fun _ _ => 1⟩).2.2
      (by decide)).1⟩

theorem foldl_add_eq_sum (f : Nat → ℚ) :
    ∀ (l : List Nat) (a : ℚ),
      l.foldl (fun sum k => sum + f k) a = a + (l.map f).sum := by
  intro l
  induction l with
  | nil => intro a; simp
  | cons b l ih =>
    intro a
    rw [List.foldl_cons, ih, List.map_cons, List.sum_cons]
    ring

theorem mulPairLoop_eq (A B : Matrix) (i j : Nat) :
    ∀ (kk k : Nat), A.cols - k ≤ kk → ∀ (l0 l1 : ℚ),
      mulPairLoop A B i j k l0 l1 =
        l0 + l1 + ((List.range' k (A.cols - k)).map
          fun t => A.data i t * B.data t j).sum := by
  intro kk
  induction kk with
  | zero =>
    intro k hk l0 l1
    rw [mulPairLoop, if_neg (by omega), if_neg (by omega),
      show A.cols - k = 0 by omega]
    simp
  | succ kk ih =>
    intro k hk l0 l1
    rw [mulPairLoop]
    by_cases hc : k + 1 < A.cols
    · rw [if_pos hc, ih (k + 2) (by omega)]
      have happ := List.range'_append_1 k 2 (A.cols - (k + 2))
      rw [show A.cols - k = A.cols - (k + 2) + 2 by omega,
        ← happ, List.map_append, List.sum_append,
        show List.range' k 2 = [k, k + 1] from rfl]
      simp only [List.map_cons, List.map_nil, List.sum_cons, List.sum_nil]
      ring
    · rw [if_neg hc]
      by_cases hi : k < A.cols
      · rw [if_pos hi, show A.cols - k = 1 by omega,
          show List.range' k 1 = [k] from rfl]
        simp only [List.map_cons, List.map_nil, List.sum_cons, List.sum_nil]
        ring
      · rw [if_neg hi, show A.cols - k = 0 by omega]
        simp only [List.range'_zero, List.map_nil, List.sum_nil]

/-- C8: with agreeing inner dimensions, both multiply variants return a
matrix of `A.rows × B.cols` whose in-range entries are exactly the dot
product `Σ_k A[i][k]·B[k][j]`, the pair-reduction with scalar tail and the
triple loop alike. -/
theorem multiply_entries_correct (A B : Matrix) (h : A.cols = B.rows)
    (i j : Nat) (hi : i < A.rows) (hj : j < B.cols) :
    (Matrix.multiply_simd A B).toOption.map
        (fun C => (C.rows, C.cols, C.data i j)) =
      some (A.rows, B.cols,
        ((List.range A.cols).map fun k => A.data i k * B.data k j).sum) ∧
    (Matrix.multiply_scalar A B).toOption.map
        (fun C => (C.rows, C.cols, C.data i j)) =
      some (A.rows, B.cols,
        ((List.range A.cols).map fun k => A.data i k * B.data k j).sum) := by
  rw [Matrix.multiply_simd, Matrix.multiply_scalar, if_neg (by omega),
    if_neg (by omega)]
  constructor
  · show some (A.rows, B.cols, if i < A.rows ∧ j < B.cols
        then mulPairLoop A B i j 0 0 0 else 0) = _
    rw [if_pos ⟨hi, hj⟩, mulPairLoop_eq A B i j A.cols 0 (by omega),
      Nat.sub_zero, ← List.range_eq_range']
    norm_num
  · show some (A.rows, B.cols, if i < A.rows ∧ j < B.cols
        then dotScalar A B i j else 0) = _
    rw [if_pos ⟨hi, hj⟩, dotScalar, foldl_add_eq_sum, zero_add]

/-- Closed witness for `multiply_entries_correct` at a concrete 1×2 · 2×1
pair, entry (0, 0). -/
theorem multiply_entries_correct_witness :
    (⟨1, 2, fun _ _ => 2⟩ : Matrix).cols = (⟨2, 1, fun _ _ => 3⟩ : Matrix).rows ∧
    ((Matrix.multiply_simd ⟨1, 2, fun _ _ => 2⟩ ⟨2, 1, fun _ _ => 3⟩).toOption.map
        (fun C => (C.rows, C.cols, C.data 0 0)) =
      some ((⟨1, 2, fun _ _ => 2⟩ : Matrix).rows, (⟨2, 1, fun _ _ => 3⟩ : Matrix).cols,
        ((List.range (⟨1, 2, fun _ _ => 2⟩ : Matrix).cols).map
          fun k => (⟨1, 2, fun _ _ => 2⟩ : Matrix).data 0 k *
            (⟨2, 1, fun _ _ => 3⟩ : Matrix).data k 0).sum) ∧
     (Matrix.multiply_scalar ⟨1, 2, fun _ _ => 2⟩ ⟨2, 1, fun _ _ => 3⟩).toOption.map
        (fun C => (C.rows, C.cols, C.data 0 0)) =
      some ((⟨1, 2, fun _ _ => 2⟩ : Matrix).rows, (⟨2, 1, fun _ _ => 3⟩ : Matrix).cols,
        ((List.range (⟨1, 2, fun _ _ => 2⟩ : Matrix).cols).map
          fun k => (⟨1, 2, fun _ _ => 2⟩ : Matrix).data 0 k *
            (⟨2, 1, fun _ _ => 3⟩ : Matrix).data k 0).sum)) :=
  ⟨rfl, multiply_entries_correct ⟨1, 2, fun _ _ => 2⟩ ⟨2, 1, fun _ _ => 3⟩ rfl
    0 0 (by decide) (by decide)⟩

end ArmMigration
